import Mathlib

/-
Verification of MillenniumDB's PropertyPathBFSCheck operator
(src/relational_model/execution/binding_id_iter/property_paths/simple/property_path_bfs_check.h).

The repository provides the class declaration (attributes `visited`, `open`,
`is_first`, `end_object_id`, `bpt_searches`, `results_found`, the inline no-op
`assign_nulls`) ; the bodies of `begin`, `next` and `reset` live in the
corresponding .cc file, which is not part of the sources.  Those bodies are
therefore modelled from the specification (spec.md sections 4.1 - 4.3), as
marked on each definition.
-/

namespace MDB

/-- Transition of the path automaton: target state, edge label (none means the
wildcard that matches every label) and traversal direction (`inverse = true`
follows edges backward). -/
structure TransitionId where
  to_state : Nat
  type_id : Option Nat
  inverse : Bool
deriving DecidableEq, Repr

/-- Compiled path automaton: states are 0 .. total_states - 1, one start state,
a set of accepting (end) states, and ordered transition lists keyed by source
state. Consumed read-only by the search. -/
structure PathAutomaton where
  total_states : Nat
  start        : Nat
  end_states   : List Nat
  transitions  : Nat → List TransitionId

/-- Acceptance test of the automaton. -/
def PathAutomaton.is_final (A : PathAutomaton) (q : Nat) : Bool :=
  A.end_states.contains q

/-- One labeled directed edge of the graph, as stored in the
(type, from, to) index partitions. -/
structure Edge where
  type_id : Nat
  from_id : Nat
  to_id   : Nat
deriving DecidableEq, Repr

/-- The edge relation backing the two B+-tree partitions. -/
abbrev Graph := List Edge

/-- SearchState: the traversal token (automaton state, graph node). -/
structure SearchState where
  state : Nat
  node  : Nat
deriving DecidableEq, Repr

/-- Endpoint identifier: either a query variable or a concrete object id. -/
inductive Id where
  | var (v : Nat)
  | obj (o : Nat)
deriving DecidableEq, Repr

/-- Binding row: partial assignment from variable indices to node ids. -/
abbrev BindingId := Nat → Option Nat

/-- Resolve an endpoint identifier against the binding row: a concrete object
id is used directly, a variable is read from the row (none when unassigned,
which is a construction-time precondition violation). -/
def evalId (binding : BindingId) : Id → Option Nat
  | Id.var v => binding v
  | Id.obj o => some o

/-- Does the transition's label accept this edge label (wildcard accepts all)? -/
def type_matches (t : TransitionId) (ty : Nat) : Bool :=
  match t.type_id with
  | none => true
  | some x => x == ty

/-- Modelled from the spec: the `set_iter` + `BptIter` range scan of the .cc
file (not in the sources).  Selects the partition matching the transition's
direction (forward keyed by from = node, backward keyed by to = node), with the
label fixed unless the transition is a wildcard, and yields the neighbor
opposite `node` for each matched edge. -/
def scan_edges (G : Graph) (t : TransitionId) (node : Nat) : List Nat :=
  if t.inverse then
    (G.filter (fun ed => ed.to_id == node && type_matches t ed.type_id)).map
      (fun ed => ed.from_id)
  else
    (G.filter (fun ed => ed.from_id == node && type_matches t ed.type_id)).map
      (fun ed => ed.to_id)

/-- Mutable per-instance state of the PropertyPathBFSCheck operator: the
resolved endpoints, the dedup set `visited`, the FIFO `frontier` (the class
attribute `open`, renamed because `open` is reserved), the first-call flag and
the per-cycle counters. -/
structure PropertyPathBFSCheck where
  start_node    : Nat
  end_object_id : Nat
  visited       : List SearchState
  frontier      : List SearchState
  is_first      : Bool
  results_found : Nat
  bpt_searches  : Nat
deriving DecidableEq, Repr

/-- Is this search state an immediately successful answer: accepting automaton
state positioned at the end node? -/
def is_success (A : PathAutomaton) (end_node : Nat) (c : SearchState) : Bool :=
  A.is_final c.state && c.node == end_node

/-- Modelled from the spec: the inner candidate loop of `next` (the .cc body is
not in the sources).  For each neighbor reached by one range scan, in scan
order: if the candidate (target state, neighbor) is accepting at the end node,
report success at once; otherwise insert it into `visited` and append it to the
frontier only when it is not already in `visited`.  Returns (found, visited,
frontier). -/
def visit_neighbors (A : PathAutomaton) (end_node : Nat) (target : Nat) :
    List Nat → List SearchState → List SearchState →
    Bool × List SearchState × List SearchState
  | [], v, f => (false, v, f)
  | n :: rest, v, f =>
    if is_success A end_node ⟨target, n⟩ then
      (true, v, f)
    else if (SearchState.mk target n) ∈ v then
      visit_neighbors A end_node target rest v f
    else
      visit_neighbors A end_node target rest
        (SearchState.mk target n :: v) (f ++ [SearchState.mk target n])

/-- Modelled from the spec: the per-popped-state transition loop of `next`.
For each transition leaving the popped state, in automaton order, one range
scan is opened (and counted in `bpt_searches`) and its matches are processed by
`visit_neighbors`; the whole search stops at the first success.  Returns
(found, visited, frontier, bpt_searches). -/
def visit_transitions (G : Graph) (A : PathAutomaton) (end_node : Nat)
    (node : Nat) :
    List TransitionId → List SearchState → List SearchState → Nat →
    Bool × List SearchState × List SearchState × Nat
  | [], v, f, b => (false, v, f, b)
  | t :: rest, v, f, b =>
    match visit_neighbors A end_node t.to_state (scan_edges G t node) v f with
    | (true, v', f') => (true, v', f', b + 1)
    | (false, v', f') => visit_transitions G A end_node node rest v' f' (b + 1)

/-- Result of running the BFS while-loop: success or frontier exhaustion, each
carrying the final dedup set and scan counter; `interrupted` is the artefact of
the fuel-based embedding and is proved unreachable for sufficient fuel. -/
inductive LoopResult where
  | success (visited : List SearchState) (bpt : Nat)
  | exhausted (visited : List SearchState) (bpt : Nat)
  | interrupted (visited : List SearchState) (frontier : List SearchState) (bpt : Nat)
deriving DecidableEq, Repr

/-- Modelled from the spec: the BFS while-loop of `next` (the .cc body is not
in the sources).  While the frontier is non-empty: pop the front search state,
expand every transition leaving its automaton state via index scans, succeed as
soon as an accepting candidate at the end node appears, otherwise keep
breadth-first order by appending fresh candidates at the back.  The `fuel`
argument is the embedding's termination budget, consumed one unit per popped
state. -/
def next_loop (G : Graph) (A : PathAutomaton) (end_node : Nat) :
    Nat → List SearchState → List SearchState → Nat → LoopResult
  | _, v, [], b => LoopResult.exhausted v b
  | 0, v, f, b => LoopResult.interrupted v f b
  | fuel + 1, v, cur :: rest, b =>
    match visit_transitions G A end_node cur.node (A.transitions cur.state) v rest b with
    | (true, v', _, b') => LoopResult.success v' b'
    | (false, v', f', b') => next_loop G A end_node fuel v' f' b'

/-- Outcome of one call to `next`: success, exhaustion (the normal negative
answer), or the fuel artefact. -/
inductive Outcome where
  | success
  | exhausted
  | interrupted
deriving DecidableEq, Repr

/-- Modelled from the spec: drains the frontier through `next_loop` and writes
the results back into the operator state; on success the whole search is
stopped (the frontier is discarded) and `results_found` is incremented. -/
def expand_frontier (G : Graph) (A : PathAutomaton) (fuel : Nat)
    (st : PropertyPathBFSCheck) : Outcome × PropertyPathBFSCheck :=
  match next_loop G A st.end_object_id fuel st.visited st.frontier st.bpt_searches with
  | LoopResult.success v b =>
    (Outcome.success,
      { st with visited := v, frontier := [],
                results_found := st.results_found + 1, bpt_searches := b })
  | LoopResult.exhausted v b =>
    (Outcome.exhausted, { st with visited := v, frontier := [], bpt_searches := b })
  | LoopResult.interrupted v f b =>
    (Outcome.interrupted, { st with visited := v, frontier := f, bpt_searches := b })

/-- Modelled from the spec: `PropertyPathBFSCheck::next` (the .cc body is not
in the sources).  On the first call of a cycle (guarded by `is_first`, which it
clears) the seed search state at the front of the frontier is tested for
immediate acceptance at the end node — the zero-length-path case, succeeding
with no index scan; every call then drains the frontier breadth-first via
`expand_frontier`.  Exhaustion is the normal negative answer, not an error. -/
def next (G : Graph) (A : PathAutomaton) (fuel : Nat)
    (st : PropertyPathBFSCheck) : Outcome × PropertyPathBFSCheck :=
  if st.is_first then
    let st1 := { st with is_first := false }
    match st.frontier with
    | seed :: _ =>
      if is_success A st.end_object_id seed then
        (Outcome.success,
          { st1 with frontier := [], results_found := st.results_found + 1 })
      else
        expand_frontier G A fuel st1
    | [] => expand_frontier G A fuel st1
  else
    expand_frontier G A fuel st

/-- Modelled from the spec: `PropertyPathBFSCheck::begin` (the .cc body is not
in the sources).  Resolves both endpoint identifiers against the binding row
(failing on an unassigned variable, a plan-construction bug), seeds `visited`
and the frontier with the single SearchState (automaton start state,
start node), clears the counters and marks the cycle as not yet concluded. -/
def PropertyPathBFSCheck.begin (binding : BindingId) (start target : Id)
    (A : PathAutomaton) : Option PropertyPathBFSCheck :=
  match evalId binding start, evalId binding target with
  | some s, some e =>
    some { start_node := s
           end_object_id := e
           visited := [⟨A.start, s⟩]
           frontier := [⟨A.start, s⟩]
           is_first := true
           results_found := 0
           bpt_searches := 0 }
  | _, _ => none

/-- Modelled from the spec: `PropertyPathBFSCheck::reset` (the .cc body is not
in the sources).  Clears the dedup set and the frontier back to the single seed
search state and restores the per-cycle counters and the first-call flag,
without re-reading the binding row: the resolved endpoints are kept unchanged
so the identical search can be re-run. -/
def PropertyPathBFSCheck.reset (A : PathAutomaton)
    (st : PropertyPathBFSCheck) : PropertyPathBFSCheck :=
  { st with visited := [⟨A.start, st.start_node⟩]
            frontier := [⟨A.start, st.start_node⟩]
            is_first := true
            results_found := 0
            bpt_searches := 0 }

/-- The inline `assign_nulls` hook of the header: an empty body, so the binding
row is returned untouched — the operator binds no new variables. -/
def assign_nulls (binding : BindingId) : BindingId := binding

/-- Everything the operator can see: the binding row, the automaton and the
edge store (all external collaborators) plus its own mutable state.  Used to
express frame properties of the operator's hooks. -/
structure OperatorWorld where
  binding   : BindingId
  automaton : PathAutomaton
  graph     : Graph
  op        : PropertyPathBFSCheck

/-- One `next` call viewed as a transformer of the whole world: only the
operator's private state is replaced. -/
def next_world (fuel : Nat) (w : OperatorWorld) : Outcome × OperatorWorld :=
  ((next w.graph w.automaton fuel w.op).1,
    { w with op := (next w.graph w.automaton fuel w.op).2 })

/-- One `reset` call viewed as a transformer of the whole world. -/
def reset_world (w : OperatorWorld) : OperatorWorld :=
  { w with op := PropertyPathBFSCheck.reset w.automaton w.op }

/-- The `assign_nulls` hook viewed as a transformer of the whole world. -/
def assign_nulls_world (w : OperatorWorld) : OperatorWorld :=
  { w with binding := assign_nulls w.binding }

/-- One product-search step, following the spec: some transition leaving the
current automaton state leads, through an edge of the graph matched in the
transition's declared direction and label, to the neighbor node. -/
def step_matches (G : Graph) (A : PathAutomaton) (x y : SearchState) : Prop :=
  ∃ t ∈ A.transitions x.state, y.state = t.to_state ∧ y.node ∈ scan_edges G t x.node

/-- Spec-side success condition of the whole search: a finite (possibly
zero-length) matched edge sequence from s drives the automaton from its start
state to an accepting state positioned at e. -/
def path_exists (G : Graph) (A : PathAutomaton) (s e : Nat) : Prop :=
  ∃ q, Relation.ReflTransGen (step_matches G A) ⟨A.start, s⟩ ⟨q, e⟩ ∧
    A.is_final q = true

/-- Well-formed automaton: the start state and every transition target are
among the states 0 .. total_states - 1. -/
def PathAutomaton.wf (A : PathAutomaton) : Prop :=
  A.start < A.total_states ∧
    ∀ q t, t ∈ A.transitions q → t.to_state < A.total_states

/-- Every node the search can ever stand on: the start node and both endpoints
of every stored edge. -/
def node_univ (G : Graph) (s : Nat) : List Nat :=
  s :: (G.map Edge.from_id ++ G.map Edge.to_id)

/-- Upper bound on the number of distinct search states of one cycle, hence on
the number of loop iterations: |automaton states| * |candidate nodes|. -/
def search_bound (G : Graph) (A : PathAutomaton) (s : Nat) : Nat :=
  A.total_states * (node_univ G s).dedup.length

/-- Per-cycle well-formedness of the operator state: the dedup set holds no
duplicates, the frontier holds no duplicates, and every frontier entry refers
to an entry currently present in the dedup set. -/
def StateInv (st : PropertyPathBFSCheck) : Prop :=
  st.visited.Nodup ∧ st.frontier.Nodup ∧ ∀ x ∈ st.frontier, x ∈ st.visited

/-- A search state is fully explored relative to a set w: every product step
out of it reaches a non-successful state that is recorded in w. -/
def succ_closed (G : Graph) (A : PathAutomaton) (e : Nat)
    (x : SearchState) (w : List SearchState) : Prop :=
  ∀ y, step_matches G A x y → is_success A e y = false ∧ y ∈ w

/-- Dedup set carried by a loop result. -/
def LoopResult.vset : LoopResult → List SearchState
  | LoopResult.success v _ => v
  | LoopResult.exhausted v _ => v
  | LoopResult.interrupted v _ _ => v

/-- Frontier carried by a loop result: discarded on success, empty at
exhaustion, intact when the fuel ran out. -/
def LoopResult.fset : LoopResult → List SearchState
  | LoopResult.success _ _ => []
  | LoopResult.exhausted _ _ => []
  | LoopResult.interrupted _ f _ => f

/-- Did the fuel artefact fire? -/
def LoopResult.is_interrupted : LoopResult → Bool
  | LoopResult.interrupted _ _ _ => true
  | _ => false

/-- The operator state exactly as `begin` builds it for resolved endpoints
(s, e): seeded dedup set and frontier, cleared counters, first-call flag up. -/
def init_state (A : PathAutomaton) (s e : Nat) : PropertyPathBFSCheck :=
  { start_node := s
    end_object_id := e
    visited := [⟨A.start, s⟩]
    frontier := [⟨A.start, s⟩]
    is_first := true
    results_found := 0
    bpt_searches := 0 }

/-- Miniature instance used to exercise the theorems on concrete data: a
one-state automaton whose start state is accepting and has no transitions. -/
def demoA : PathAutomaton :=
  { total_states := 1
    start := 0
    end_states := [0]
    transitions := fun _ => [] }

/-- A range scan yields, per matched edge, the endpoint opposite the scanned
node, with the direction and label dictated by the transition. -/
theorem mem_scan_edges {G : Graph} {t : TransitionId} {node n : Nat} :
    n ∈ scan_edges G t node ↔
      ∃ ed ∈ G, type_matches t ed.type_id = true ∧
        ((t.inverse = false ∧ ed.from_id = node ∧ ed.to_id = n) ∨
         (t.inverse = true ∧ ed.to_id = node ∧ ed.from_id = n)) := by
  cases hi : t.inverse <;>
    simp [scan_edges, hi, List.mem_map, List.mem_filter] <;>
    constructor
  · rintro ⟨ed, ⟨hem, hto, hty⟩, hfrom⟩
    exact ⟨ed, hem, hty, hto, hfrom⟩
  · rintro ⟨ed, hem, hty, hto, hfrom⟩
    exact ⟨ed, ⟨hem, hto, hty⟩, hfrom⟩
  · rintro ⟨ed, ⟨hem, hfrom, hty⟩, hto⟩
    exact ⟨ed, hem, hty, hfrom, hto⟩
  · rintro ⟨ed, hem, hty, hfrom, hto⟩
    exact ⟨ed, ⟨hem, hfrom, hty⟩, hto⟩

/-- Every node produced by a range scan is an endpoint of a stored edge, hence
lies in the node universe (for any seed node s). -/
theorem scan_edges_subset_univ {G : Graph} {t : TransitionId} {node n : Nat}
    (h : n ∈ scan_edges G t node) (s : Nat) : n ∈ node_univ G s := by
  rcases mem_scan_edges.mp h with ⟨ed, hem, -, hdir⟩
  rcases hdir with ⟨-, -, hto⟩ | ⟨-, -, hfrom⟩
  · exact List.mem_cons_of_mem s (List.mem_append_right _
      (List.mem_map.mpr ⟨ed, hem, hto⟩))
  · exact List.mem_cons_of_mem s (List.mem_append_left _
      (List.mem_map.mpr ⟨ed, hem, hfrom⟩))

/-- A duplicate-free list of search states whose automaton states lie below
`total` and whose nodes lie in `nu` has at most total * |distinct nu| entries:
the arithmetic content of the dedup-set size bound. -/
theorem nodup_state_card_le (v : List SearchState) (total : Nat) (nu : List Nat)
    (hnd : v.Nodup)
    (h : ∀ x ∈ v, x.state < total ∧ x.node ∈ nu) :
    v.length ≤ total * nu.dedup.length := by
  have hinj : Function.Injective (fun x : SearchState => (x.state, x.node)) := by
    intro a b hab
    cases a; cases b
    simpa using hab
  calc v.length
      = (v.map (fun x : SearchState => (x.state, x.node))).length := by simp
    _ = (v.map (fun x : SearchState => (x.state, x.node))).toFinset.card :=
        (List.toFinset_card_of_nodup (hnd.map hinj)).symm
    _ ≤ ((Finset.range total) ×ˢ nu.toFinset).card := by
        apply Finset.card_le_card
        intro p hp
        rcases List.mem_map.mp (List.mem_toFinset.mp hp) with ⟨x, hx, hpx⟩
        rcases h x hx with ⟨hs, hn⟩
        subst hpx
        exact Finset.mem_product.mpr
          ⟨Finset.mem_range.mpr hs, List.mem_toFinset.mpr hn⟩
    _ = total * nu.dedup.length := by
        rw [Finset.card_product, Finset.card_range, List.card_toFinset]

/-- The dedup-set size bound in the form claimed by the spec: at most
|automaton states| times the number of distinct nodes actually visited. -/
theorem visited_card_le (v : List SearchState) (total : Nat)
    (hnd : v.Nodup) (hst : ∀ x ∈ v, x.state < total) :
    v.length ≤ total * (v.map SearchState.node).dedup.length :=
  nodup_state_card_le v total (v.map SearchState.node) hnd
    (fun x hx => ⟨hst x hx, List.mem_map.mpr ⟨x, hx, rfl⟩⟩)

/-- Processing the candidates of one scan only ever grows the dedup set. -/
theorem visit_neighbors_subset (A : PathAutomaton) (e tgt : Nat)
    (ns : List Nat) :
    ∀ (v f : List SearchState) (r : Bool × List SearchState × List SearchState),
      visit_neighbors A e tgt ns v f = r → ∀ x ∈ v, x ∈ r.2.1 := by
  induction ns with
  | nil =>
    intro v f r h x hx
    simp only [visit_neighbors] at h
    subst h
    exact hx
  | cons n rest ih =>
    intro v f r h x hx
    simp only [visit_neighbors] at h
    split at h
    · subst h
      exact hx
    · split at h
      · exact ih v f r h x hx
      · exact ih _ _ r h x (List.mem_cons_of_mem _ hx)

/-- Frontier characterization for one scan: afterwards the frontier holds
exactly the previous frontier entries plus the candidates newly inserted into
the dedup set — an entry is enqueued exactly at its first insertion. -/
theorem visit_neighbors_frontier (A : PathAutomaton) (e tgt : Nat)
    (ns : List Nat) :
    ∀ (v f : List SearchState) (r : Bool × List SearchState × List SearchState),
      visit_neighbors A e tgt ns v f = r →
      ∀ x, x ∈ r.2.2 ↔ x ∈ f ∨ (x ∈ r.2.1 ∧ x ∉ v) := by
  induction ns with
  | nil =>
    intro v f r h x
    simp only [visit_neighbors] at h
    subst h
    simp only [List.mem_cons]
    constructor
    · exact fun hx => Or.inl hx
    · rintro (hx | ⟨hx, hnx⟩)
      · exact hx
      · exact absurd hx hnx
  | cons n rest ih =>
    intro v f r h x
    simp only [visit_neighbors] at h
    split at h
    · subst h
      constructor
      · exact fun hx => Or.inl hx
      · rintro (hx | ⟨hx, hnx⟩)
        · exact hx
        · exact absurd hx hnx
    · split at h
      · exact ih v f r h x
      · rename_i hfresh
        have hsub := visit_neighbors_subset A e tgt rest _ _ r h
        have hx2 := ih _ _ r h x
        constructor
        · intro hx
          rcases (hx2.mp hx) with hxf | ⟨hxv, hxnv⟩
          · rcases List.mem_append.mp hxf with hxf | hxc
            · exact Or.inl hxf
            · have hxc : x = SearchState.mk tgt n := List.mem_singleton.mp hxc
              subst hxc
              exact Or.inr ⟨hsub _ (List.mem_cons_self _ _), hfresh⟩
          · exact Or.inr ⟨hxv, fun hxv' => hxnv (List.mem_cons_of_mem _ hxv')⟩
        · rintro (hxf | ⟨hxv, hxnv⟩)
          · exact hx2.mpr (Or.inl (List.mem_append_left _ hxf))
          · by_cases hxc : x = SearchState.mk tgt n
            · subst hxc
              exact hx2.mpr (Or.inl (List.mem_append_right _
                (List.mem_singleton.mpr rfl)))
            · refine hx2.mpr (Or.inr ⟨hxv, fun hx' => ?_⟩)
              rcases List.mem_cons.mp hx' with hx' | hx'
              · exact hxc hx'
              · exact hxnv hx'

/-- Every entry of the dedup set after one scan either was already there or is
a candidate (target state, scanned neighbor) of this scan. -/
theorem visit_neighbors_new (A : PathAutomaton) (e tgt : Nat)
    (ns : List Nat) :
    ∀ (v f : List SearchState) (r : Bool × List SearchState × List SearchState),
      visit_neighbors A e tgt ns v f = r →
      ∀ x ∈ r.2.1, x ∈ v ∨ (x.state = tgt ∧ x.node ∈ ns) := by
  induction ns with
  | nil =>
    intro v f r h x hx
    simp only [visit_neighbors] at h
    subst h
    exact Or.inl hx
  | cons n rest ih =>
    intro v f r h x hx
    simp only [visit_neighbors] at h
    split at h
    · subst h
      exact Or.inl hx
    · split at h
      · rcases ih v f r h x hx with hxv | ⟨hs, hn⟩
        · exact Or.inl hxv
        · exact Or.inr ⟨hs, List.mem_cons_of_mem _ hn⟩
      · rcases ih _ _ r h x hx with hxv | ⟨hs, hn⟩
        · rcases List.mem_cons.mp hxv with hxc | hxv
          · subst hxc
            exact Or.inr ⟨rfl, List.mem_cons_self _ _⟩
          · exact Or.inl hxv
        · exact Or.inr ⟨hs, List.mem_cons_of_mem _ hn⟩

/-- Bookkeeping identity of one scan: each insertion into the dedup set is
matched by exactly one enqueue. -/
theorem visit_neighbors_length (A : PathAutomaton) (e tgt : Nat)
    (ns : List Nat) :
    ∀ (v f : List SearchState) (r : Bool × List SearchState × List SearchState),
      visit_neighbors A e tgt ns v f = r →
      r.2.2.length + v.length = f.length + r.2.1.length := by
  induction ns with
  | nil =>
    intro v f r h
    simp only [visit_neighbors] at h
    subst h
    simp [Nat.add_comm]
  | cons n rest ih =>
    intro v f r h
    simp only [visit_neighbors] at h
    split at h
    · subst h
      simp [Nat.add_comm]
    · split at h
      · exact ih v f r h
      · have := ih _ _ r h
        simp only [List.length_append, List.length_cons, List.length_nil] at this
        omega

/-- When the scan reports no success, none of its candidates is an accepting
state at the end node, and every candidate ends up in the dedup set. -/
theorem visit_neighbors_not_found (A : PathAutomaton) (e tgt : Nat)
    (ns : List Nat) :
    ∀ (v f : List SearchState) (r : Bool × List SearchState × List SearchState),
      visit_neighbors A e tgt ns v f = r → r.1 = false →
      ∀ n ∈ ns, is_success A e ⟨tgt, n⟩ = false ∧ SearchState.mk tgt n ∈ r.2.1 := by
  induction ns with
  | nil =>
    intro v f r h hfd n hn
    exact absurd hn (List.not_mem_nil n)
  | cons n rest ih =>
    intro v f r h hfd m hm
    simp only [visit_neighbors] at h
    split at h
    · subst h
      simp at hfd
    · rename_i hnosucc
      split at h
      · rename_i hmem
        rcases List.mem_cons.mp hm with hm | hm
        · subst hm
          exact ⟨Bool.not_eq_true _ ▸ eq_false_of_ne_true hnosucc,
            visit_neighbors_subset A e tgt rest v f r h _ hmem⟩
        · exact ih v f r h hfd m hm
      · rcases List.mem_cons.mp hm with hm | hm
        · subst hm
          exact ⟨eq_false_of_ne_true hnosucc,
            visit_neighbors_subset A e tgt rest _ _ r h _ (List.mem_cons_self _ _)⟩
        · exact ih _ _ r h hfd m hm

/-- When the scan reports success, some candidate of this scan is an accepting
state at the end node. -/
theorem visit_neighbors_found (A : PathAutomaton) (e tgt : Nat)
    (ns : List Nat) :
    ∀ (v f : List SearchState) (r : Bool × List SearchState × List SearchState),
      visit_neighbors A e tgt ns v f = r → r.1 = true →
      ∃ n ∈ ns, is_success A e ⟨tgt, n⟩ = true := by
  induction ns with
  | nil =>
    intro v f r h hfd
    simp only [visit_neighbors] at h
    subst h
    simp at hfd
  | cons n rest ih =>
    intro v f r h hfd
    simp only [visit_neighbors] at h
    split at h
    · rename_i hsucc
      exact ⟨n, List.mem_cons_self _ _, hsucc⟩
    · split at h
      · rcases ih v f r h hfd with ⟨m, hm, hs⟩
        exact ⟨m, List.mem_cons_of_mem _ hm, hs⟩
      · rcases ih _ _ r h hfd with ⟨m, hm, hs⟩
        exact ⟨m, List.mem_cons_of_mem _ hm, hs⟩

/-- One scan preserves the dedup/frontier well-formedness: no duplicate in the
dedup set, no duplicate in the frontier, frontier entries present in the dedup
set. -/
theorem visit_neighbors_inv (A : PathAutomaton) (e tgt : Nat)
    (ns : List Nat) :
    ∀ (v f : List SearchState) (r : Bool × List SearchState × List SearchState),
      visit_neighbors A e tgt ns v f = r →
      v.Nodup → f.Nodup → (∀ x ∈ f, x ∈ v) →
      r.2.1.Nodup ∧ r.2.2.Nodup ∧ ∀ x ∈ r.2.2, x ∈ r.2.1 := by
  induction ns with
  | nil =>
    intro v f r h hv hf hfv
    simp only [visit_neighbors] at h
    subst h
    exact ⟨hv, hf, hfv⟩
  | cons n rest ih =>
    intro v f r h hv hf hfv
    simp only [visit_neighbors] at h
    split at h
    · subst h
      exact ⟨hv, hf, hfv⟩
    · split at h
      · exact ih v f r h hv hf hfv
      · rename_i hfresh
        refine ih _ _ r h (List.nodup_cons.mpr ⟨hfresh, hv⟩) ?_ ?_
        · refine List.Nodup.append hf (List.nodup_singleton _) ?_
          intro x hxf hxc
          have hxc : x = SearchState.mk tgt n := List.mem_singleton.mp hxc
          subst hxc
          exact hfresh (hfv _ hxf)
        · intro x hx
          rcases List.mem_append.mp hx with hx | hx
          · exact List.mem_cons_of_mem _ (hfv _ hx)
          · have hx : x = SearchState.mk tgt n := List.mem_singleton.mp hx
            subst hx
            exact List.mem_cons_self _ _

/-- Expanding all transitions of one popped state only ever grows the dedup
set. -/
theorem visit_transitions_subset (G : Graph) (A : PathAutomaton) (e node : Nat)
    (ts : List TransitionId) :
    ∀ (v f : List SearchState) (b : Nat)
      (r : Bool × List SearchState × List SearchState × Nat),
      visit_transitions G A e node ts v f b = r → ∀ x ∈ v, x ∈ r.2.1 := by
  induction ts with
  | nil =>
    intro v f b r h x hx
    simp only [visit_transitions] at h
    subst h
    exact hx
  | cons t rest ih =>
    intro v f b r h x hx
    simp only [visit_transitions] at h
    split at h
    · rename_i v1 f1 heq
      subst h
      exact visit_neighbors_subset A e t.to_state _ v f _ heq x hx
    · rename_i v1 f1 heq
      exact ih v1 f1 (b + 1) r h x
        (visit_neighbors_subset A e t.to_state _ v f _ heq x hx)

/-- Frontier characterization for one popped state: afterwards the frontier
holds exactly the previous entries plus the candidates newly inserted into the
dedup set. -/
theorem visit_transitions_frontier (G : Graph) (A : PathAutomaton) (e node : Nat)
    (ts : List TransitionId) :
    ∀ (v f : List SearchState) (b : Nat)
      (r : Bool × List SearchState × List SearchState × Nat),
      visit_transitions G A e node ts v f b = r →
      ∀ x, x ∈ r.2.2.1 ↔ x ∈ f ∨ (x ∈ r.2.1 ∧ x ∉ v) := by
  induction ts with
  | nil =>
    intro v f b r h x
    simp only [visit_transitions] at h
    subst h
    constructor
    · exact fun hx => Or.inl hx
    · rintro (hx | ⟨hx, hnx⟩)
      · exact hx
      · exact absurd hx hnx
  | cons t rest ih =>
    intro v f b r h x
    simp only [visit_transitions] at h
    split at h
    · rename_i v1 f1 heq
      subst h
      exact visit_neighbors_frontier A e t.to_state _ v f _ heq x
    · rename_i v1 f1 heq
      have hvn := visit_neighbors_frontier A e t.to_state _ v f _ heq x
      have hsub := visit_neighbors_subset A e t.to_state _ v f _ heq
      have hsub2 := visit_transitions_subset G A e node rest v1 f1 (b + 1) r h
      have hih := ih v1 f1 (b + 1) r h x
      simp only at hvn hih
      constructor
      · intro hx
        rcases hih.mp hx with hxf | ⟨hxv, hxnv⟩
        · rcases hvn.mp hxf with hxf | ⟨hxv, hxnv⟩
          · exact Or.inl hxf
          · exact Or.inr ⟨hsub2 x hxv, hxnv⟩
        · exact Or.inr ⟨hxv, fun hx' => hxnv (hsub x hx')⟩
      · rintro (hxf | ⟨hxv, hxnv⟩)
        · exact hih.mpr (Or.inl (hvn.mpr (Or.inl hxf)))
        · by_cases hx1 : x ∈ v1
          · exact hih.mpr (Or.inl (hvn.mpr (Or.inr ⟨hx1, hxnv⟩)))
          · exact hih.mpr (Or.inr ⟨hxv, hx1⟩)

/-- Every entry of the dedup set after one popped state either was already
there or is a candidate reached by one of the popped state's transitions. -/
theorem visit_transitions_new (G : Graph) (A : PathAutomaton) (e node : Nat)
    (ts : List TransitionId) :
    ∀ (v f : List SearchState) (b : Nat)
      (r : Bool × List SearchState × List SearchState × Nat),
      visit_transitions G A e node ts v f b = r →
      ∀ x ∈ r.2.1, x ∈ v ∨
        ∃ t ∈ ts, x.state = t.to_state ∧ x.node ∈ scan_edges G t node := by
  induction ts with
  | nil =>
    intro v f b r h x hx
    simp only [visit_transitions] at h
    subst h
    exact Or.inl hx
  | cons t rest ih =>
    intro v f b r h x hx
    simp only [visit_transitions] at h
    split at h
    · rename_i v1 f1 heq
      subst h
      rcases visit_neighbors_new A e t.to_state _ v f _ heq x hx with hxv | ⟨hs, hn⟩
      · exact Or.inl hxv
      · exact Or.inr ⟨t, List.mem_cons_self _ _, hs, hn⟩
    · rename_i v1 f1 heq
      rcases ih v1 f1 (b + 1) r h x hx with hxv | ⟨t', ht', hs, hn⟩
      · rcases visit_neighbors_new A e t.to_state _ v f _ heq x hxv with hxv | ⟨hs, hn⟩
        · exact Or.inl hxv
        · exact Or.inr ⟨t, List.mem_cons_self _ _, hs, hn⟩
      · exact Or.inr ⟨t', List.mem_cons_of_mem _ ht', hs, hn⟩

/-- Bookkeeping identity of one popped state: each insertion into the dedup set
is matched by exactly one enqueue. -/
theorem visit_transitions_length (G : Graph) (A : PathAutomaton) (e node : Nat)
    (ts : List TransitionId) :
    ∀ (v f : List SearchState) (b : Nat)
      (r : Bool × List SearchState × List SearchState × Nat),
      visit_transitions G A e node ts v f b = r →
      r.2.2.1.length + v.length = f.length + r.2.1.length := by
  induction ts with
  | nil =>
    intro v f b r h
    simp only [visit_transitions] at h
    subst h
    simp [Nat.add_comm]
  | cons t rest ih =>
    intro v f b r h
    simp only [visit_transitions] at h
    split at h
    · rename_i v1 f1 heq
      subst h
      exact visit_neighbors_length A e t.to_state _ v f _ heq
    · rename_i v1 f1 heq
      have h1 := visit_neighbors_length A e t.to_state _ v f _ heq
      have h2 := ih v1 f1 (b + 1) r h
      simp only at h1 h2
      omega

/-- When expanding one popped state reports no success, no candidate reachable
through any of its transitions is an accepting state at the end node, and each
such candidate ends up in the dedup set. -/
theorem visit_transitions_not_found (G : Graph) (A : PathAutomaton) (e node : Nat)
    (ts : List TransitionId) :
    ∀ (v f : List SearchState) (b : Nat)
      (r : Bool × List SearchState × List SearchState × Nat),
      visit_transitions G A e node ts v f b = r → r.1 = false →
      ∀ t ∈ ts, ∀ n ∈ scan_edges G t node,
        is_success A e ⟨t.to_state, n⟩ = false ∧
          SearchState.mk t.to_state n ∈ r.2.1 := by
  induction ts with
  | nil =>
    intro v f b r h hfd t ht
    exact absurd ht (List.not_mem_nil t)
  | cons t rest ih =>
    intro v f b r h hfd t' ht' n hn
    simp only [visit_transitions] at h
    split at h
    · rename_i v1 f1 heq
      subst h
      simp at hfd
    · rename_i v1 f1 heq
      rcases List.mem_cons.mp ht' with ht' | ht'
      · subst ht'
        rcases visit_neighbors_not_found A e t'.to_state _ v f _ heq rfl n hn with ⟨hs, hm⟩
        exact ⟨hs, visit_transitions_subset G A e node rest v1 f1 (b + 1) r h _ hm⟩
      · exact ih v1 f1 (b + 1) r h hfd t' ht' n hn

/-- When expanding one popped state reports success, some candidate reachable
through one of its transitions is an accepting state at the end node. -/
theorem visit_transitions_found (G : Graph) (A : PathAutomaton) (e node : Nat)
    (ts : List TransitionId) :
    ∀ (v f : List SearchState) (b : Nat)
      (r : Bool × List SearchState × List SearchState × Nat),
      visit_transitions G A e node ts v f b = r → r.1 = true →
      ∃ t ∈ ts, ∃ n ∈ scan_edges G t node,
        is_success A e ⟨t.to_state, n⟩ = true := by
  induction ts with
  | nil =>
    intro v f b r h hfd
    simp only [visit_transitions] at h
    subst h
    simp at hfd
  | cons t rest ih =>
    intro v f b r h hfd
    simp only [visit_transitions] at h
    split at h
    · rename_i v1 f1 heq
      subst h
      rcases visit_neighbors_found A e t.to_state _ v f _ heq rfl with ⟨n, hn, hs⟩
      exact ⟨t, List.mem_cons_self _ _, n, hn, hs⟩
    · rename_i v1 f1 heq
      rcases ih v1 f1 (b + 1) r h hfd with ⟨t', ht', n, hn, hs⟩
      exact ⟨t', List.mem_cons_of_mem _ ht', n, hn, hs⟩

/-- Expanding one popped state preserves the dedup/frontier well-formedness. -/
theorem visit_transitions_inv (G : Graph) (A : PathAutomaton) (e node : Nat)
    (ts : List TransitionId) :
    ∀ (v f : List SearchState) (b : Nat)
      (r : Bool × List SearchState × List SearchState × Nat),
      visit_transitions G A e node ts v f b = r →
      v.Nodup → f.Nodup → (∀ x ∈ f, x ∈ v) →
      r.2.1.Nodup ∧ r.2.2.1.Nodup ∧ ∀ x ∈ r.2.2.1, x ∈ r.2.1 := by
  induction ts with
  | nil =>
    intro v f b r h hv hf hfv
    simp only [visit_transitions] at h
    subst h
    exact ⟨hv, hf, hfv⟩
  | cons t rest ih =>
    intro v f b r h hv hf hfv
    simp only [visit_transitions] at h
    split at h
    · rename_i v1 f1 heq
      subst h
      exact visit_neighbors_inv A e t.to_state _ v f _ heq hv hf hfv
    · rename_i v1 f1 heq
      have h1 := visit_neighbors_inv A e t.to_state _ v f _ heq hv hf hfv
      exact ih v1 f1 (b + 1) r h h1.1 h1.2.1 h1.2.2

/-- The BFS loop only ever grows the dedup set. -/
theorem next_loop_subset (G : Graph) (A : PathAutomaton) (e : Nat)
    (fuel : Nat) :
    ∀ (v f : List SearchState) (b : Nat),
      ∀ x ∈ v, x ∈ (next_loop G A e fuel v f b).vset := by
  induction fuel with
  | zero =>
    intro v f b x hx
    cases f with
    | nil => simpa [next_loop, LoopResult.vset] using hx
    | cons cur rest => simpa [next_loop, LoopResult.vset] using hx
  | succ fuel ih =>
    intro v f b x hx
    cases f with
    | nil => simpa [next_loop, LoopResult.vset] using hx
    | cons cur rest =>
      simp only [next_loop]
      rcases hvt : visit_transitions G A e cur.node (A.transitions cur.state) v rest b
        with ⟨fd, v1, f1, b1⟩
      have hsub := visit_transitions_subset G A e cur.node (A.transitions cur.state)
        v rest b _ hvt x hx
      cases fd with
      | true => simpa [LoopResult.vset] using hsub
      | false => exact ih v1 f1 b1 x hsub

/-- Soundness of a successful loop run: if every dedup entry is reachable from
the seed and the frontier refers into the dedup set, then success exhibits a
reachable accepting state at the end node. -/
theorem next_loop_success_sound (G : Graph) (A : PathAutomaton) (e : Nat)
    (s0 : SearchState) (fuel : Nat) :
    ∀ (v f : List SearchState) (b : Nat) (v' : List SearchState) (b' : Nat),
      next_loop G A e fuel v f b = LoopResult.success v' b' →
      (∀ x ∈ f, x ∈ v) →
      (∀ x ∈ v, Relation.ReflTransGen (step_matches G A) s0 x) →
      ∃ y, Relation.ReflTransGen (step_matches G A) s0 y ∧
        is_success A e y = true := by
  induction fuel with
  | zero =>
    intro v f b v' b' h hfv hv
    cases f with
    | nil => simp [next_loop] at h
    | cons cur rest => simp [next_loop] at h
  | succ fuel ih =>
    intro v f b v' b' h hfv hv
    cases f with
    | nil => simp [next_loop] at h
    | cons cur rest =>
      simp only [next_loop] at h
      rcases hvt : visit_transitions G A e cur.node (A.transitions cur.state) v rest b
        with ⟨fd, v1, f1, b1⟩
      rw [hvt] at h
      have hcur : Relation.ReflTransGen (step_matches G A) s0 cur :=
        hv cur (hfv cur (List.mem_cons_self _ _))
      cases fd with
      | true =>
        rcases visit_transitions_found G A e cur.node (A.transitions cur.state)
          v rest b _ hvt rfl with ⟨t, ht, n, hn, hs⟩
        refine ⟨⟨t.to_state, n⟩, ?_, hs⟩
        exact Relation.ReflTransGen.tail hcur ⟨t, ht, rfl, hn⟩
      | false =>
        refine ih v1 f1 b1 v' b' h ?_ ?_
        · intro x hx
          rcases (visit_transitions_frontier G A e cur.node (A.transitions cur.state)
            v rest b _ hvt x).mp hx with hx | ⟨hx, -⟩
          · exact visit_transitions_subset G A e cur.node (A.transitions cur.state)
              v rest b _ hvt x (hfv x (List.mem_cons_of_mem _ hx))
          · exact hx
        · intro x hx
          rcases visit_transitions_new G A e cur.node (A.transitions cur.state)
            v rest b _ hvt x hx with hx | ⟨t, ht, hs, hn⟩
          · exact hv x hx
          · exact Relation.ReflTransGen.tail hcur ⟨t, ht, hs, hn⟩

/-- Completeness skeleton of an exhausted loop run: when the frontier empties,
every dedup entry is fully explored — all its product successors are
non-successful and themselves recorded. -/
theorem next_loop_exhausted_closed (G : Graph) (A : PathAutomaton) (e : Nat)
    (fuel : Nat) :
    ∀ (v f : List SearchState) (b : Nat) (v' : List SearchState) (b' : Nat),
      next_loop G A e fuel v f b = LoopResult.exhausted v' b' →
      (∀ x ∈ f, x ∈ v) →
      (∀ x ∈ v, x ∉ f → succ_closed G A e x v') →
      ∀ x ∈ v', succ_closed G A e x v' := by
  induction fuel with
  | zero =>
    intro v f b v' b' h hfv hpre x hx
    cases f with
    | nil =>
      simp only [next_loop, LoopResult.exhausted.injEq] at h
      rcases h with ⟨rfl, rfl⟩
      exact hpre x hx (List.not_mem_nil x)
    | cons cur rest => simp [next_loop] at h
  | succ fuel ih =>
    intro v f b v' b' h hfv hpre x hx
    cases f with
    | nil =>
      simp only [next_loop, LoopResult.exhausted.injEq] at h
      rcases h with ⟨rfl, rfl⟩
      exact hpre x hx (List.not_mem_nil x)
    | cons cur rest =>
      simp only [next_loop] at h
      rcases hvt : visit_transitions G A e cur.node (A.transitions cur.state) v rest b
        with ⟨fd, v1, f1, b1⟩
      rw [hvt] at h
      cases fd with
      | true => simp at h
      | false =>
        have h2 : next_loop G A e fuel v1 f1 b1 = LoopResult.exhausted v' b' := h
        have hsub := visit_transitions_subset G A e cur.node (A.transitions cur.state)
          v rest b _ hvt
        have hfr := visit_transitions_frontier G A e cur.node (A.transitions cur.state)
          v rest b _ hvt
        have hsub1 := next_loop_subset G A e fuel v1 f1 b1
        rw [h2] at hsub1
        refine ih v1 f1 b1 v' b' h2 ?_ ?_ x hx
        · intro y hy
          rcases (hfr y).mp hy with hy | ⟨hy, -⟩
          · exact hsub y (hfv y (List.mem_cons_of_mem _ hy))
          · exact hy
        · intro y hy hynf
          by_cases hyc : y = cur
          · subst hyc
            intro z hz
            rcases hz with ⟨t, ht, hzs, hzn⟩
            rcases visit_transitions_not_found G A e y.node (A.transitions y.state)
              v rest b _ hvt rfl t ht z.node hzn with ⟨hzsucc, hzmem⟩
            have hzeq : z = SearchState.mk t.to_state z.node := by
              cases z
              simp only at hzs
              simp [hzs]
            constructor
            · rw [hzeq]
              exact hzsucc
            · exact hsub1 z (hzeq ▸ hzmem)
          · by_cases hyv : y ∈ v
            · have hynf0 : y ∉ cur :: rest := by
                intro hy'
                rcases List.mem_cons.mp hy' with hy' | hy'
                · exact hyc hy'
                · exact hynf ((hfr y).mpr (Or.inl hy'))
              exact hpre y hyv hynf0
            · exact absurd ((hfr y).mpr (Or.inr ⟨hy, hyv⟩)) hynf

/-- On an exhausted run no successful state is ever inserted into the dedup
set: candidates are tested for success before insertion. -/
theorem next_loop_exhausted_not_success (G : Graph) (A : PathAutomaton) (e : Nat)
    (fuel : Nat) :
    ∀ (v f : List SearchState) (b : Nat) (v' : List SearchState) (b' : Nat),
      next_loop G A e fuel v f b = LoopResult.exhausted v' b' →
      (∀ x ∈ v, is_success A e x = false) →
      ∀ x ∈ v', is_success A e x = false := by
  induction fuel with
  | zero =>
    intro v f b v' b' h hv x hx
    cases f with
    | nil =>
      simp only [next_loop, LoopResult.exhausted.injEq] at h
      rcases h with ⟨rfl, rfl⟩
      exact hv x hx
    | cons cur rest => simp [next_loop] at h
  | succ fuel ih =>
    intro v f b v' b' h hv x hx
    cases f with
    | nil =>
      simp only [next_loop, LoopResult.exhausted.injEq] at h
      rcases h with ⟨rfl, rfl⟩
      exact hv x hx
    | cons cur rest =>
      simp only [next_loop] at h
      rcases hvt : visit_transitions G A e cur.node (A.transitions cur.state) v rest b
        with ⟨fd, v1, f1, b1⟩
      rw [hvt] at h
      cases fd with
      | true => simp at h
      | false =>
        have h2 : next_loop G A e fuel v1 f1 b1 = LoopResult.exhausted v' b' := h
        refine ih v1 f1 b1 v' b' h2 ?_ x hx
        intro y hy
        rcases visit_transitions_new G A e cur.node (A.transitions cur.state)
          v rest b _ hvt y hy with hyv | ⟨t, ht, hys, hyn⟩
        · exact hv y hyv
        · rcases visit_transitions_not_found G A e cur.node (A.transitions cur.state)
            v rest b _ hvt rfl t ht y.node hyn with ⟨hysucc, -⟩
          have hyeq : y = SearchState.mk t.to_state y.node := by
            cases y
            simp only at hys
            simp [hys]
          rw [hyeq]
          exact hysucc

/-- The BFS loop preserves the dedup/frontier well-formedness: no duplicates
in either structure and every frontier entry present in the dedup set. -/
theorem next_loop_inv (G : Graph) (A : PathAutomaton) (e : Nat) (fuel : Nat) :
    ∀ (v f : List SearchState) (b : Nat),
      v.Nodup → f.Nodup → (∀ x ∈ f, x ∈ v) →
      (next_loop G A e fuel v f b).vset.Nodup ∧
      (next_loop G A e fuel v f b).fset.Nodup ∧
      ∀ x ∈ (next_loop G A e fuel v f b).fset,
        x ∈ (next_loop G A e fuel v f b).vset := by
  induction fuel with
  | zero =>
    intro v f b hv hf hfv
    cases f with
    | nil => exact ⟨hv, by simp [next_loop, LoopResult.fset], by simp [next_loop, LoopResult.fset]⟩
    | cons cur rest =>
      simp only [next_loop, LoopResult.vset, LoopResult.fset]
      exact ⟨hv, hf, hfv⟩
  | succ fuel ih =>
    intro v f b hv hf hfv
    cases f with
    | nil => exact ⟨hv, by simp [next_loop, LoopResult.fset], by simp [next_loop, LoopResult.fset]⟩
    | cons cur rest =>
      simp only [next_loop]
      rcases hvt : visit_transitions G A e cur.node (A.transitions cur.state) v rest b
        with ⟨fd, v1, f1, b1⟩
      have hrest : rest.Nodup := (List.nodup_cons.mp hf).2
      have hrestv : ∀ x ∈ rest, x ∈ v :=
        fun x hx => hfv x (List.mem_cons_of_mem _ hx)
      have hinv := visit_transitions_inv G A e cur.node (A.transitions cur.state)
        v rest b _ hvt hv hrest hrestv
      cases fd with
      | true =>
        simp only [LoopResult.vset, LoopResult.fset]
        exact ⟨hinv.1, List.nodup_nil, by simp⟩
      | false => exact ih v1 f1 b1 hinv.1 hinv.2.1 hinv.2.2

/-- Expansion keeps every dedup entry inside the finite product universe:
automaton states below total_states, nodes among the seed node and the stored
edge endpoints. -/
theorem visit_transitions_univ (G : Graph) (A : PathAutomaton) (e node s : Nat)
    (ts : List TransitionId) (v f : List SearchState) (b : Nat)
    (r : Bool × List SearchState × List SearchState × Nat)
    (h : visit_transitions G A e node ts v f b = r)
    (hts : ∀ t ∈ ts, t.to_state < A.total_states)
    (hu : ∀ x ∈ v, x.state < A.total_states ∧ x.node ∈ node_univ G s) :
    ∀ x ∈ r.2.1, x.state < A.total_states ∧ x.node ∈ node_univ G s := by
  intro x hx
  rcases visit_transitions_new G A e node ts v f b r h x hx with hxv | ⟨t, ht, hs, hn⟩
  · exact hu x hxv
  · exact ⟨hs ▸ hts t ht, scan_edges_subset_univ hn s⟩

/-- The BFS loop keeps every dedup entry inside the finite product universe. -/
theorem next_loop_univ (G : Graph) (A : PathAutomaton) (e s : Nat)
    (hwf : A.wf) (fuel : Nat) :
    ∀ (v f : List SearchState) (b : Nat),
      (∀ x ∈ v, x.state < A.total_states ∧ x.node ∈ node_univ G s) →
      ∀ x ∈ (next_loop G A e fuel v f b).vset,
        x.state < A.total_states ∧ x.node ∈ node_univ G s := by
  induction fuel with
  | zero =>
    intro v f b hu x hx
    cases f with
    | nil => exact hu x (by simpa [next_loop, LoopResult.vset] using hx)
    | cons cur rest => exact hu x (by simpa [next_loop, LoopResult.vset] using hx)
  | succ fuel ih =>
    intro v f b hu x hx
    cases f with
    | nil => exact hu x (by simpa [next_loop, LoopResult.vset] using hx)
    | cons cur rest =>
      simp only [next_loop] at hx
      rcases hvt : visit_transitions G A e cur.node (A.transitions cur.state) v rest b
        with ⟨fd, v1, f1, b1⟩
      rw [hvt] at hx
      have hu1 := visit_transitions_univ G A e cur.node s (A.transitions cur.state)
        v rest b _ hvt (fun t ht => hwf.2 cur.state t ht) hu
      cases fd with
      | true => exact hu1 x (by simpa [LoopResult.vset] using hx)
      | false => exact ih v1 f1 b1 hu1 x hx

/-- Termination: with fuel exceeding the product-universe bound the BFS loop
always concludes — the fuel artefact never fires. -/
theorem next_loop_no_interrupt (G : Graph) (A : PathAutomaton) (e s : Nat)
    (hwf : A.wf) (fuel : Nat) :
    ∀ (v f : List SearchState) (b : Nat),
      v.Nodup → f.Nodup → (∀ x ∈ f, x ∈ v) →
      (∀ x ∈ v, x.state < A.total_states ∧ x.node ∈ node_univ G s) →
      f.length + search_bound G A s < fuel + v.length →
      (next_loop G A e fuel v f b).is_interrupted = false := by
  induction fuel with
  | zero =>
    intro v f b hv hf hfv hu hfuel
    cases f with
    | nil => simp [next_loop, LoopResult.is_interrupted]
    | cons cur rest =>
      have hcard : v.length ≤ search_bound G A s :=
        nodup_state_card_le v A.total_states (node_univ G s) hv hu
      simp only [List.length_cons] at hfuel
      omega
  | succ fuel ih =>
    intro v f b hv hf hfv hu hfuel
    cases f with
    | nil => simp [next_loop, LoopResult.is_interrupted]
    | cons cur rest =>
      simp only [next_loop]
      rcases hvt : visit_transitions G A e cur.node (A.transitions cur.state) v rest b
        with ⟨fd, v1, f1, b1⟩
      have hrest : rest.Nodup := (List.nodup_cons.mp hf).2
      have hrestv : ∀ x ∈ rest, x ∈ v :=
        fun x hx => hfv x (List.mem_cons_of_mem _ hx)
      have hinv := visit_transitions_inv G A e cur.node (A.transitions cur.state)
        v rest b _ hvt hv hrest hrestv
      have hu1 := visit_transitions_univ G A e cur.node s (A.transitions cur.state)
        v rest b _ hvt (fun t ht => hwf.2 cur.state t ht) hu
      have hlen := visit_transitions_length G A e cur.node (A.transitions cur.state)
        v rest b _ hvt
      cases fd with
      | true => simp [LoopResult.is_interrupted]
      | false =>
        refine ih v1 f1 b1 hinv.1 hinv.2.1 hinv.2.2 hu1 ?_
        simp only [List.length_cons] at hfuel
        simp only at hlen
        omega

/-- Fuel irrelevance: any two sufficient fuel budgets drive the BFS loop to the
same result. -/
theorem next_loop_fuel_congr (G : Graph) (A : PathAutomaton) (e s : Nat)
    (hwf : A.wf) (fuel1 : Nat) :
    ∀ (fuel2 : Nat) (v f : List SearchState) (b : Nat),
      v.Nodup → f.Nodup → (∀ x ∈ f, x ∈ v) →
      (∀ x ∈ v, x.state < A.total_states ∧ x.node ∈ node_univ G s) →
      f.length + search_bound G A s < fuel1 + v.length →
      f.length + search_bound G A s < fuel2 + v.length →
      next_loop G A e fuel1 v f b = next_loop G A e fuel2 v f b := by
  induction fuel1 with
  | zero =>
    intro fuel2 v f b hv hf hfv hu hfuel1 hfuel2
    cases f with
    | nil => simp [next_loop]
    | cons cur rest =>
      have hcard : v.length ≤ search_bound G A s :=
        nodup_state_card_le v A.total_states (node_univ G s) hv hu
      simp only [List.length_cons] at hfuel1
      omega
  | succ fuel1 ih =>
    intro fuel2 v f b hv hf hfv hu hfuel1 hfuel2
    cases f with
    | nil => simp [next_loop]
    | cons cur rest =>
      cases fuel2 with
      | zero =>
        have hcard : v.length ≤ search_bound G A s :=
          nodup_state_card_le v A.total_states (node_univ G s) hv hu
        simp only [List.length_cons] at hfuel2
        omega
      | succ fuel2 =>
        simp only [next_loop]
        rcases hvt : visit_transitions G A e cur.node (A.transitions cur.state) v rest b
          with ⟨fd, v1, f1, b1⟩
        have hrest : rest.Nodup := (List.nodup_cons.mp hf).2
        have hrestv : ∀ x ∈ rest, x ∈ v :=
          fun x hx => hfv x (List.mem_cons_of_mem _ hx)
        have hinv := visit_transitions_inv G A e cur.node (A.transitions cur.state)
          v rest b _ hvt hv hrest hrestv
        have hu1 := visit_transitions_univ G A e cur.node s (A.transitions cur.state)
          v rest b _ hvt (fun t ht => hwf.2 cur.state t ht) hu
        have hlen := visit_transitions_length G A e cur.node (A.transitions cur.state)
          v rest b _ hvt
        cases fd with
        | true => rfl
        | false =>
          simp only [List.length_cons] at hfuel1 hfuel2
          simp only at hlen
          exact ih fuel2 v1 f1 b1 hinv.1 hinv.2.1 hinv.2.2 hu1 (by omega) (by omega)

/-- Successful endpoint resolution characterizes the state `begin` returns. -/
theorem begin_eq_init (binding : BindingId) (sid eid : Id) (A : PathAutomaton)
    (st : PropertyPathBFSCheck)
    (h : PropertyPathBFSCheck.begin binding sid eid A = some st) :
    ∃ s e, evalId binding sid = some s ∧ evalId binding eid = some e ∧
      st = init_state A s e := by
  revert h
  rcases hs : evalId binding sid with _ | s
  · intro h
    simp [PropertyPathBFSCheck.begin, hs] at h
  · rcases he : evalId binding eid with _ | e
    · intro h
      simp [PropertyPathBFSCheck.begin, hs, he] at h
    · intro h
      simp only [PropertyPathBFSCheck.begin, hs, he, Option.some.injEq] at h
      exact ⟨s, e, rfl, rfl, h.symm⟩

/-- The frontier-draining wrapper keeps the first-call flag untouched. -/
theorem expand_frontier_is_first (G : Graph) (A : PathAutomaton) (fuel : Nat)
    (st : PropertyPathBFSCheck) :
    (expand_frontier G A fuel st).2.is_first = st.is_first := by
  unfold expand_frontier
  rcases next_loop G A st.end_object_id fuel st.visited st.frontier st.bpt_searches
    with ⟨v', b'⟩ | ⟨v', b'⟩ | ⟨v', f', b'⟩ <;> rfl

/-- After a success or exhaustion outcome the frontier is discarded: the search
of this cycle is concluded. -/
theorem expand_frontier_concluded (G : Graph) (A : PathAutomaton) (fuel : Nat)
    (st : PropertyPathBFSCheck)
    (h : (expand_frontier G A fuel st).1 = Outcome.success ∨
         (expand_frontier G A fuel st).1 = Outcome.exhausted) :
    (expand_frontier G A fuel st).2.frontier = [] := by
  revert h
  unfold expand_frontier
  rcases next_loop G A st.end_object_id fuel st.visited st.frontier st.bpt_searches
    with ⟨v', b'⟩ | ⟨v', b'⟩ | ⟨v', f', b'⟩
  · intro h
    rfl
  · intro h
    rfl
  · intro h
    simp at h

/-- With the first-call flag down and an empty frontier, a call to `next`
reports exhaustion and leaves the state — scan counter included — exactly as
it was. -/
theorem next_on_concluded (G : Graph) (A : PathAutomaton) (fuel : Nat)
    (st : PropertyPathBFSCheck)
    (hff : st.is_first = false) (hfr : st.frontier = []) :
    next G A fuel st = (Outcome.exhausted, st) := by
  rcases st with ⟨s, e, v, f, ff, rf, b⟩
  simp only at hff hfr
  subst hff
  subst hfr
  simp [next, expand_frontier, next_loop]

/-- C1: for every finite labeled graph, automaton and resolved endpoints
(s, e) = (st.start_node, st.end_object_id), a call to next() after begin
reports success if and only if there is a finite (possibly zero-length)
sequence of directed labeled edges of the graph starting at s, each step
matching some transition of the automaton in its declared direction, ending at
e with the automaton in an accepting state; otherwise it reports exhaustion,
a normal outcome (the fuel artefact is excluded for any sufficient budget). -/
theorem next_succeeds_iff_path_exists (G : Graph) (A : PathAutomaton)
    (binding : BindingId) (sid eid : Id) (st : PropertyPathBFSCheck) (fuel : Nat)
    (h : PropertyPathBFSCheck.begin binding sid eid A = some st)
    (hwf : A.wf)
    (hfuel : search_bound G A st.start_node < fuel) :
    (next G A fuel st).1 = Outcome.success ↔
      path_exists G A st.start_node st.end_object_id := by
  rcases begin_eq_init binding sid eid A st h with ⟨s, e, hs, he, rfl⟩
  simp only [init_state] at hfuel ⊢
  by_cases hseed : is_success A e ⟨A.start, s⟩ = true
  · have hse : A.is_final A.start = true ∧ s = e := by
      simpa [is_success] using hseed
    rcases hse with ⟨hfin, hse⟩
    subst hse
    exact iff_of_true (by simp [next, hseed])
      ⟨A.start, Relation.ReflTransGen.refl, hfin⟩
  · have hseed' : is_success A e ⟨A.start, s⟩ = false := eq_false_of_ne_true hseed
    have hvnd : ([(⟨A.start, s⟩ : SearchState)]).Nodup := List.nodup_singleton _
    have hfv : ∀ x ∈ [(⟨A.start, s⟩ : SearchState)],
        x ∈ [(⟨A.start, s⟩ : SearchState)] := fun x hx => hx
    have hu : ∀ x ∈ [(⟨A.start, s⟩ : SearchState)],
        x.state < A.total_states ∧ x.node ∈ node_univ G s := by
      intro x hx
      have hx : x = ⟨A.start, s⟩ := List.mem_singleton.mp hx
      subst hx
      exact ⟨hwf.1, List.mem_cons_self _ _⟩
    have hfuel' : ([(⟨A.start, s⟩ : SearchState)]).length + search_bound G A s <
        fuel + ([(⟨A.start, s⟩ : SearchState)]).length := by
      simp only [List.length_singleton]
      omega
    have hni := next_loop_no_interrupt G A e s hwf fuel
      [⟨A.start, s⟩] [⟨A.start, s⟩] 0 hvnd hvnd hfv hu hfuel'
    rcases hr : next_loop G A e fuel [⟨A.start, s⟩] [⟨A.start, s⟩] 0
      with ⟨v', b'⟩ | ⟨v', b'⟩ | ⟨v', f', b'⟩
    · refine iff_of_true (by simp [next, hseed', expand_frontier, hr]) ?_
      rcases next_loop_success_sound G A e ⟨A.start, s⟩ fuel
        [⟨A.start, s⟩] [⟨A.start, s⟩] 0 v' b' hr hfv
        (fun x hx => by
          have hx : x = ⟨A.start, s⟩ := List.mem_singleton.mp hx
          subst hx
          exact Relation.ReflTransGen.refl) with ⟨y, hy, hys⟩
      have hys' : A.is_final y.state = true ∧ y.node = e := by
        simpa [is_success] using hys
      refine ⟨y.state, ?_, hys'.1⟩
      rw [← hys'.2]
      exact hy
    · refine iff_of_false (by simp [next, hseed', expand_frontier, hr]) ?_
      rintro ⟨q, hreach, hq⟩
      have hsubv := next_loop_subset G A e fuel [⟨A.start, s⟩] [⟨A.start, s⟩] 0
      rw [hr] at hsubv
      simp only [LoopResult.vset] at hsubv
      have hclosed := next_loop_exhausted_closed G A e fuel
        [⟨A.start, s⟩] [⟨A.start, s⟩] 0 v' b' hr hfv
        (fun x hx hnx => absurd hx hnx)
      have hnots := next_loop_exhausted_not_success G A e fuel
        [⟨A.start, s⟩] [⟨A.start, s⟩] 0 v' b' hr
        (fun x hx => by
          have hx : x = ⟨A.start, s⟩ := List.mem_singleton.mp hx
          subst hx
          exact hseed')
      have hmem : ∀ z, Relation.ReflTransGen (step_matches G A) ⟨A.start, s⟩ z →
          z ∈ v' := by
        intro z hz
        induction hz with
        | refl => exact hsubv _ (List.mem_singleton.mpr rfl)
        | tail hab hbc ih => exact (hclosed _ ih _ hbc).2
      have hcontra := hnots ⟨q, e⟩ (hmem ⟨q, e⟩ hreach)
      simp [is_success, hq] at hcontra
    · rw [hr] at hni
      simp [LoopResult.is_interrupted] at hni

/-- C2: on any finite graph and finite well-formed automaton, next() after
begin concludes for every fuel budget above the finite product-space bound —
in particular it reports exhaustion rather than hanging on cycles that never
reach the end node — and the dedup set stays duplicate-free with at most
|automaton states| * |distinct nodes visited| entries. -/
theorem next_terminates_dedup_bounded (G : Graph) (A : PathAutomaton)
    (binding : BindingId) (sid eid : Id) (st : PropertyPathBFSCheck) (fuel : Nat)
    (h : PropertyPathBFSCheck.begin binding sid eid A = some st)
    (hwf : A.wf)
    (hfuel : search_bound G A st.start_node < fuel) :
    (next G A fuel st).1 ≠ Outcome.interrupted ∧
    (next G A fuel st).2.visited.Nodup ∧
    (next G A fuel st).2.visited.length ≤
      A.total_states * ((next G A fuel st).2.visited.map SearchState.node).dedup.length := by
  rcases begin_eq_init binding sid eid A st h with ⟨s, e, hs, he, rfl⟩
  simp only [init_state] at hfuel ⊢
  have htot : 1 ≤ A.total_states := Nat.lt_of_le_of_lt (Nat.zero_le _) hwf.1
  by_cases hseed : is_success A e ⟨A.start, s⟩ = true
  · refine ⟨by simp [next, hseed], by simp [next, hseed], ?_⟩
    simp [next, hseed]
    omega
  · have hseed' : is_success A e ⟨A.start, s⟩ = false := eq_false_of_ne_true hseed
    have hvnd : ([(⟨A.start, s⟩ : SearchState)]).Nodup := List.nodup_singleton _
    have hfv : ∀ x ∈ [(⟨A.start, s⟩ : SearchState)],
        x ∈ [(⟨A.start, s⟩ : SearchState)] := fun x hx => hx
    have hu : ∀ x ∈ [(⟨A.start, s⟩ : SearchState)],
        x.state < A.total_states ∧ x.node ∈ node_univ G s := by
      intro x hx
      have hx : x = ⟨A.start, s⟩ := List.mem_singleton.mp hx
      subst hx
      exact ⟨hwf.1, List.mem_cons_self _ _⟩
    have hfuel' : ([(⟨A.start, s⟩ : SearchState)]).length + search_bound G A s <
        fuel + ([(⟨A.start, s⟩ : SearchState)]).length := by
      simp only [List.length_singleton]
      omega
    have hni := next_loop_no_interrupt G A e s hwf fuel
      [⟨A.start, s⟩] [⟨A.start, s⟩] 0 hvnd hvnd hfv hu hfuel'
    have hinv := next_loop_inv G A e fuel [⟨A.start, s⟩] [⟨A.start, s⟩] 0
      hvnd hvnd hfv
    have huniv := next_loop_univ G A e s hwf fuel [⟨A.start, s⟩] [⟨A.start, s⟩] 0 hu
    rcases hr : next_loop G A e fuel [⟨A.start, s⟩] [⟨A.start, s⟩] 0
      with ⟨v', b'⟩ | ⟨v', b'⟩ | ⟨v', f', b'⟩
    · rw [hr] at hinv huniv
      simp only [LoopResult.vset] at hinv huniv
      refine ⟨by simp [next, hseed', expand_frontier, hr], ?_, ?_⟩
      · simpa [next, hseed', expand_frontier, hr] using hinv.1
      · have hcard := visited_card_le v' A.total_states hinv.1
          (fun x hx => (huniv x hx).1)
        simpa [next, hseed', expand_frontier, hr] using hcard
    · rw [hr] at hinv huniv
      simp only [LoopResult.vset] at hinv huniv
      refine ⟨by simp [next, hseed', expand_frontier, hr], ?_, ?_⟩
      · simpa [next, hseed', expand_frontier, hr] using hinv.1
      · have hcard := visited_card_le v' A.total_states hinv.1
          (fun x hx => (huniv x hx).1)
        simpa [next, hseed', expand_frontier, hr] using hcard
    · rw [hr] at hni
      simp [LoopResult.is_interrupted] at hni

/-- C3: zero-length path — when the resolved start node equals the resolved
end node and the automaton start state is accepting, the first next() after
begin reports success with the scan counter still at 0: no index scan was
issued. -/
theorem zero_length_path_no_scan (G : Graph) (A : PathAutomaton)
    (binding : BindingId) (sid eid : Id) (st : PropertyPathBFSCheck) (fuel : Nat)
    (h : PropertyPathBFSCheck.begin binding sid eid A = some st)
    (hse : st.start_node = st.end_object_id)
    (hfin : A.is_final A.start = true) :
    (next G A fuel st).1 = Outcome.success ∧
    (next G A fuel st).2.bpt_searches = 0 := by
  rcases begin_eq_init binding sid eid A st h with ⟨s, e, hs, he, rfl⟩
  simp only [init_state] at hse ⊢
  subst hse
  have hseed : is_success A s ⟨A.start, s⟩ = true := by
    simp [is_success, hfin]
  exact ⟨by simp [next, hseed], by simp [next, hseed]⟩

/-- After next() reported success or exhaustion, the cycle is concluded: the
first-call flag is down and the frontier is empty. -/
theorem next_concluded_state (G : Graph) (A : PathAutomaton) (fuel : Nat)
    (st : PropertyPathBFSCheck) (o : Outcome) (st' : PropertyPathBFSCheck)
    (h : next G A fuel st = (o, st'))
    (ho : o = Outcome.success ∨ o = Outcome.exhausted) :
    st'.is_first = false ∧ st'.frontier = [] := by
  rcases st with ⟨s, e, v, f, ff, rf, b⟩
  cases ff with
  | false =>
    simp only [next, Bool.false_eq_true, if_false] at h
    have h1 := expand_frontier_is_first G A fuel ⟨s, e, v, f, false, rf, b⟩
    have h2 := expand_frontier_concluded G A fuel ⟨s, e, v, f, false, rf, b⟩
      (by rw [h]; exact ho)
    rw [h] at h1 h2
    exact ⟨h1, h2⟩
  | true =>
    cases f with
    | nil =>
      simp only [next, eq_self_iff_true, if_true] at h
      have h1 := expand_frontier_is_first G A fuel ⟨s, e, v, [], false, rf, b⟩
      have h2 := expand_frontier_concluded G A fuel ⟨s, e, v, [], false, rf, b⟩
        (by rw [h]; exact ho)
      rw [h] at h1 h2
      exact ⟨h1, h2⟩
    | cons seed rest =>
      simp only [next, eq_self_iff_true, if_true] at h
      split at h
      · have h2 : _ = st' := congrArg Prod.snd h
        subst h2
        exact ⟨rfl, rfl⟩
      · have h1 := expand_frontier_is_first G A fuel ⟨s, e, v, seed :: rest, false, rf, b⟩
        have h2 := expand_frontier_concluded G A fuel ⟨s, e, v, seed :: rest, false, rf, b⟩
          (by rw [h]; exact ho)
        rw [h] at h1 h2
        exact ⟨h1, h2⟩

/-- C4: within one begin/reset cycle next() reports success at most once, and
once it has reported success or exhaustion every later next() call of the
cycle reports exhaustion again, returning the state — scan counter included —
completely unchanged: no new index scan is issued. -/
theorem next_exhausted_after_conclusion (G : Graph) (A : PathAutomaton)
    (fuel fuel' : Nat) (st : PropertyPathBFSCheck) (o : Outcome)
    (st' : PropertyPathBFSCheck)
    (h : next G A fuel st = (o, st'))
    (ho : o = Outcome.success ∨ o = Outcome.exhausted) :
    next G A fuel' st' = (Outcome.exhausted, st') := by
  have hcs := next_concluded_state G A fuel st o st' h ho
  exact next_on_concluded G A fuel' st' hcs.1 hcs.2

/-- Draining the frontier preserves the dedup/frontier well-formedness. -/
theorem expand_frontier_inv (G : Graph) (A : PathAutomaton) (fuel : Nat)
    (st : PropertyPathBFSCheck) (hinv : StateInv st) :
    StateInv (expand_frontier G A fuel st).2 := by
  rcases hinv with ⟨hv, hf, hfv⟩
  have hloop := next_loop_inv G A st.end_object_id fuel st.visited st.frontier
    st.bpt_searches hv hf hfv
  revert hloop
  unfold expand_frontier
  rcases next_loop G A st.end_object_id fuel st.visited st.frontier st.bpt_searches
    with ⟨v', b'⟩ | ⟨v', b'⟩ | ⟨v', f', b'⟩ <;>
    intro hloop <;>
    simp only [LoopResult.vset, LoopResult.fset] at hloop <;>
    exact ⟨hloop.1, hloop.2.1, hloop.2.2⟩

/-- C5: the dedup/frontier invariant holds after begin and reset and is
preserved by every next call — the dedup set and the frontier stay
duplicate-free (each SearchState value is inserted at most once per cycle)
with every frontier entry referring to a dedup entry — and, per scan, an
entry joins the frontier exactly at the moment of its first insertion into
the dedup set (exploration order being the FIFO order of `next_loop`, which
pops the front of the frontier while fresh entries are appended at the back). -/
theorem dedup_frontier_invariant :
    (∀ (binding : BindingId) (sid eid : Id) (A : PathAutomaton)
        (st : PropertyPathBFSCheck),
        PropertyPathBFSCheck.begin binding sid eid A = some st → StateInv st) ∧
    (∀ (G : Graph) (A : PathAutomaton) (fuel : Nat) (st : PropertyPathBFSCheck),
        StateInv st → StateInv (next G A fuel st).2) ∧
    (∀ (A : PathAutomaton) (st : PropertyPathBFSCheck),
        StateInv (PropertyPathBFSCheck.reset A st)) ∧
    (∀ (A : PathAutomaton) (e tgt : Nat) (ns : List Nat)
        (v f : List SearchState) (r : Bool × List SearchState × List SearchState),
        visit_neighbors A e tgt ns v f = r →
        ∀ x, x ∈ r.2.2 ↔ x ∈ f ∨ (x ∈ r.2.1 ∧ x ∉ v)) := by
  refine ⟨?_, ?_, ?_, ?_⟩
  · intro binding sid eid A st h
    rcases begin_eq_init binding sid eid A st h with ⟨s, e, hs, he, rfl⟩
    exact ⟨List.nodup_singleton _, List.nodup_singleton _, fun x hx => hx⟩
  · intro G A fuel st hinv
    rcases st with ⟨s, e, v, f, ff, rf, b⟩
    rcases hinv with ⟨hv, hf, hfv⟩
    cases ff with
    | false =>
      simp only [next, Bool.false_eq_true, if_false]
      exact expand_frontier_inv G A fuel ⟨s, e, v, f, false, rf, b⟩ ⟨hv, hf, hfv⟩
    | true =>
      cases f with
      | nil =>
        simp only [next, eq_self_iff_true, if_true]
        exact expand_frontier_inv G A fuel ⟨s, e, v, [], false, rf, b⟩
          ⟨hv, List.nodup_nil, fun x hx => absurd hx (List.not_mem_nil x)⟩
      | cons seed rest =>
        simp only [next, eq_self_iff_true, if_true]
        split
        · exact ⟨hv, List.nodup_nil, fun x hx => absurd hx (List.not_mem_nil x)⟩
        · exact expand_frontier_inv G A fuel ⟨s, e, v, seed :: rest, false, rf, b⟩
            ⟨hv, hf, hfv⟩
  · intro A st
    exact ⟨List.nodup_singleton _, List.nodup_singleton _, fun x hx => hx⟩
  · intro A e tgt ns v f r h x
    exact visit_neighbors_frontier A e tgt ns v f r h x

/-- C6: postcondition of begin — the endpoints are resolved from the
identifiers through the binding row, the dedup set and the frontier hold
exactly the seed SearchState (automaton start state, start node), the result
and scan counters are cleared and the cycle is marked not yet concluded. -/
theorem begin_postcondition (binding : BindingId) (sid eid : Id)
    (A : PathAutomaton) (st : PropertyPathBFSCheck)
    (h : PropertyPathBFSCheck.begin binding sid eid A = some st) :
    evalId binding sid = some st.start_node ∧
    evalId binding eid = some st.end_object_id ∧
    st.visited = [⟨A.start, st.start_node⟩] ∧
    st.frontier = [⟨A.start, st.start_node⟩] ∧
    st.results_found = 0 ∧ st.bpt_searches = 0 ∧ st.is_first = true := by
  rcases begin_eq_init binding sid eid A st h with ⟨s, e, hs, he, rfl⟩
  exact ⟨hs, he, rfl, rfl, rfl, rfl, rfl⟩

/-- C7: frame property of reset — the dedup set and the frontier are cleared
back to the single seed entry and the per-cycle counters and first-call flag
are restored, while the resolved endpoints are kept unchanged; the binding row
is not consulted, so reset rebuilds exactly the state begin would have built
for the same resolved endpoints. -/
theorem reset_frame (A : PathAutomaton) (st : PropertyPathBFSCheck) :
    (PropertyPathBFSCheck.reset A st).start_node = st.start_node ∧
    (PropertyPathBFSCheck.reset A st).end_object_id = st.end_object_id ∧
    (PropertyPathBFSCheck.reset A st).visited = [⟨A.start, st.start_node⟩] ∧
    (PropertyPathBFSCheck.reset A st).frontier = [⟨A.start, st.start_node⟩] ∧
    (PropertyPathBFSCheck.reset A st).is_first = true ∧
    (PropertyPathBFSCheck.reset A st).results_found = 0 ∧
    (PropertyPathBFSCheck.reset A st).bpt_searches = 0 ∧
    ∀ (binding : BindingId) (sid eid : Id) (st0 : PropertyPathBFSCheck),
      PropertyPathBFSCheck.begin binding sid eid A = some st0 →
      st0.start_node = st.start_node → st0.end_object_id = st.end_object_id →
      PropertyPathBFSCheck.reset A st = st0 := by
  refine ⟨rfl, rfl, rfl, rfl, rfl, rfl, rfl, ?_⟩
  intro binding sid eid st0 h h1 h2
  rcases begin_eq_init binding sid eid A st0 h with ⟨s, e, hs, he, rfl⟩
  simp only [init_state] at h1 h2
  subst h1
  subst h2
  rfl

/-- C8: the operator writes nothing into the binding row and never mutates the
automaton or the edge store — its next and reset steps only replace its own
private state, and the bind-new-variables hook `assign_nulls` is a no-op that
assigns nothing. -/
theorem operator_writes_nothing :
    (∀ b : BindingId, assign_nulls b = b) ∧
    (∀ (fuel : Nat) (w : OperatorWorld),
      (next_world fuel w).2.binding = w.binding ∧
      (next_world fuel w).2.automaton = w.automaton ∧
      (next_world fuel w).2.graph = w.graph) ∧
    (∀ w : OperatorWorld,
      (reset_world w).binding = w.binding ∧
      (reset_world w).automaton = w.automaton ∧
      (reset_world w).graph = w.graph) ∧
    (∀ w : OperatorWorld, assign_nulls_world w = w) :=
  ⟨fun _ => rfl,
   fun _ _ => ⟨rfl, rfl, rfl⟩,
   fun _ => ⟨rfl, rfl, rfl⟩,
   fun _ => rfl⟩

/-- C9: determinism — two initialize-plus-produce-next runs on the identical
graph, automaton, endpoints and binding row give the same outcome (and the
same final operator state), for any two sufficient fuel budgets of the
embedding. -/
theorem run_deterministic (G : Graph) (A : PathAutomaton)
    (binding : BindingId) (sid eid : Id) (st : PropertyPathBFSCheck)
    (fuel1 fuel2 : Nat)
    (h : PropertyPathBFSCheck.begin binding sid eid A = some st)
    (hwf : A.wf)
    (h1 : search_bound G A st.start_node < fuel1)
    (h2 : search_bound G A st.start_node < fuel2) :
    next G A fuel1 st = next G A fuel2 st := by
  rcases begin_eq_init binding sid eid A st h with ⟨s, e, hs, he, rfl⟩
  simp only [init_state] at h1 h2 ⊢
  by_cases hseed : is_success A e ⟨A.start, s⟩ = true
  · simp [next, hseed]
  · have hseed' : is_success A e ⟨A.start, s⟩ = false := eq_false_of_ne_true hseed
    have hvnd : ([(⟨A.start, s⟩ : SearchState)]).Nodup := List.nodup_singleton _
    have hfv : ∀ x ∈ [(⟨A.start, s⟩ : SearchState)],
        x ∈ [(⟨A.start, s⟩ : SearchState)] := fun x hx => hx
    have hu : ∀ x ∈ [(⟨A.start, s⟩ : SearchState)],
        x.state < A.total_states ∧ x.node ∈ node_univ G s := by
      intro x hx
      have hx : x = ⟨A.start, s⟩ := List.mem_singleton.mp hx
      subst hx
      exact ⟨hwf.1, List.mem_cons_self _ _⟩
    have hcongr := next_loop_fuel_congr G A e s hwf fuel1 fuel2
      [⟨A.start, s⟩] [⟨A.start, s⟩] 0 hvnd hvnd hfv hu
      (by simp only [List.length_singleton]; omega)
      (by simp only [List.length_singleton]; omega)
    simp only [next, eq_self_iff_true, if_true, hseed', Bool.false_eq_true,
      if_false, expand_frontier]
    rw [hcongr]

/-- C10: the seed-acceptance check runs only on the first next() call of a
cycle — begin and reset raise the is_first flag, the first next() call lowers
it, and any call finding the flag down skips the seed check entirely,
proceeding directly to frontier expansion. -/
theorem is_first_guards_seed_check :
    (∀ (binding : BindingId) (sid eid : Id) (A : PathAutomaton)
        (st : PropertyPathBFSCheck),
      PropertyPathBFSCheck.begin binding sid eid A = some st →
        st.is_first = true) ∧
    (∀ (A : PathAutomaton) (st : PropertyPathBFSCheck),
      (PropertyPathBFSCheck.reset A st).is_first = true) ∧
    (∀ (G : Graph) (A : PathAutomaton) (fuel : Nat) (st : PropertyPathBFSCheck),
      (next G A fuel st).2.is_first = false) ∧
    (∀ (G : Graph) (A : PathAutomaton) (fuel : Nat) (st : PropertyPathBFSCheck),
      st.is_first = false → next G A fuel st = expand_frontier G A fuel st) := by
  refine ⟨?_, ?_, ?_, ?_⟩
  · intro binding sid eid A st h
    rcases begin_eq_init binding sid eid A st h with ⟨s, e, hs, he, rfl⟩
    rfl
  · intro A st
    rfl
  · intro G A fuel st
    rcases st with ⟨s, e, v, f, ff, rf, b⟩
    cases ff with
    | false =>
      simp only [next, Bool.false_eq_true, if_false]
      exact expand_frontier_is_first G A fuel ⟨s, e, v, f, false, rf, b⟩
    | true =>
      cases f with
      | nil =>
        simp only [next, eq_self_iff_true, if_true]
        exact expand_frontier_is_first G A fuel ⟨s, e, v, [], false, rf, b⟩
      | cons seed rest =>
        simp only [next, eq_self_iff_true, if_true]
        split
        · rfl
        · exact expand_frontier_is_first G A fuel ⟨s, e, v, seed :: rest, false, rf, b⟩
  · intro G A fuel st hff
    rcases st with ⟨s, e, v, f, ff, rf, b⟩
    simp only at hff
    subst hff
    simp only [next, Bool.false_eq_true, if_false]

/-- The demo automaton is well-formed. -/
theorem demoA_wf : demoA.wf :=
  ⟨by decide, fun q t ht => absurd ht (List.not_mem_nil t)⟩

/-- Witness for C1 at a concrete instance: empty graph, accepting one-state
automaton, both endpoints resolved to node 5. -/
theorem next_succeeds_iff_path_exists_witness :
    ((next [] demoA 2 (init_state demoA 5 5)).1 = Outcome.success ↔
      path_exists [] demoA (init_state demoA 5 5).start_node
        (init_state demoA 5 5).end_object_id) :=
  next_succeeds_iff_path_exists [] demoA (fun _ => none) (Id.obj 5) (Id.obj 5)
    (init_state demoA 5 5) 2 rfl demoA_wf (by decide)

/-- Witness for C2 at a concrete instance. -/
theorem next_terminates_dedup_bounded_witness :
    (next [] demoA 2 (init_state demoA 5 5)).1 ≠ Outcome.interrupted ∧
    (next [] demoA 2 (init_state demoA 5 5)).2.visited.Nodup ∧
    (next [] demoA 2 (init_state demoA 5 5)).2.visited.length ≤
      demoA.total_states *
        ((next [] demoA 2 (init_state demoA 5 5)).2.visited.map
          SearchState.node).dedup.length :=
  next_terminates_dedup_bounded [] demoA (fun _ => none) (Id.obj 5) (Id.obj 5)
    (init_state demoA 5 5) 2 rfl demoA_wf (by decide)

/-- Witness for C3 at a concrete instance: start node equals end node and the
start state accepts. -/
theorem zero_length_path_no_scan_witness :
    (next [] demoA 2 (init_state demoA 5 5)).1 = Outcome.success ∧
    (next [] demoA 2 (init_state demoA 5 5)).2.bpt_searches = 0 :=
  zero_length_path_no_scan [] demoA (fun _ => none) (Id.obj 5) (Id.obj 5)
    (init_state demoA 5 5) 2 rfl rfl rfl

/-- Witness for C4 at a concrete instance: the state left behind by a
successful first call answers every later call with exhaustion, unchanged. -/
theorem next_exhausted_after_conclusion_witness :
    next [] demoA 3 ⟨5, 5, [⟨0, 5⟩], [], false, 1, 0⟩ =
      (Outcome.exhausted, ⟨5, 5, [⟨0, 5⟩], [], false, 1, 0⟩) :=
  next_exhausted_after_conclusion [] demoA 2 3 (init_state demoA 5 5)
    Outcome.success ⟨5, 5, [⟨0, 5⟩], [], false, 1, 0⟩ (by decide) (Or.inl rfl)

/-- Witness for C5 at a concrete instance: the invariant survives a next
call. -/
theorem dedup_frontier_invariant_witness :
    StateInv (next [] demoA 1 (init_state demoA 5 5)).2 :=
  dedup_frontier_invariant.2.1 [] demoA 1 (init_state demoA 5 5)
    ⟨List.nodup_singleton _, List.nodup_singleton _, fun _ hx => hx⟩

/-- Witness for C6 at a concrete instance with one variable endpoint read from
the binding row. -/
theorem begin_postcondition_witness :
    evalId (fun v => if v = 0 then some 7 else none) (Id.var 0) =
      some (init_state demoA 7 9).start_node ∧
    evalId (fun v => if v = 0 then some 7 else none) (Id.obj 9) =
      some (init_state demoA 7 9).end_object_id ∧
    (init_state demoA 7 9).visited =
      [⟨demoA.start, (init_state demoA 7 9).start_node⟩] ∧
    (init_state demoA 7 9).frontier =
      [⟨demoA.start, (init_state demoA 7 9).start_node⟩] ∧
    (init_state demoA 7 9).results_found = 0 ∧
    (init_state demoA 7 9).bpt_searches = 0 ∧
    (init_state demoA 7 9).is_first = true :=
  begin_postcondition (fun v => if v = 0 then some 7 else none)
    (Id.var 0) (Id.obj 9) demoA (init_state demoA 7 9) rfl

/-- Witness for C7 at a concrete instance: reset of a dirty mid-cycle state
rebuilds exactly the state begin had produced for the same endpoints. -/
theorem reset_frame_witness :
    PropertyPathBFSCheck.reset demoA ⟨5, 5, [], [], false, 3, 4⟩ =
      init_state demoA 5 5 :=
  (reset_frame demoA ⟨5, 5, [], [], false, 3, 4⟩).2.2.2.2.2.2.2
    (fun _ => none) (Id.obj 5) (Id.obj 5) (init_state demoA 5 5) rfl rfl rfl

/-- Witness for C9 at a concrete instance: two different sufficient fuel
budgets give identical runs. -/
theorem run_deterministic_witness :
    next [] demoA 2 (init_state demoA 5 5) = next [] demoA 3 (init_state demoA 5 5) :=
  run_deterministic [] demoA (fun _ => none) (Id.obj 5) (Id.obj 5)
    (init_state demoA 5 5) 2 3 rfl demoA_wf (by decide) (by decide)

/-- Witness for C10 at a concrete instance: with the flag down, next is
frontier expansion and nothing else. -/
theorem is_first_guards_seed_check_witness :
    next [] demoA 2 ⟨5, 5, [⟨0, 5⟩], [], false, 1, 0⟩ =
      expand_frontier [] demoA 2 ⟨5, 5, [⟨0, 5⟩], [], false, 1, 0⟩ :=
  is_first_guards_seed_check.2.2.2 [] demoA 2 ⟨5, 5, [⟨0, 5⟩], [], false, 1, 0⟩ rfl

end MDB
